import Mathlib

/-!
Formal model of `src/code-agent/playground/main.py` (lowvibe).

The Python program computes, for a target DNA string and a catalog of basic
units (each with a sequence, an integer cost and a deletion budget `dmax`),
the minimum cost and fewest unit count to assemble the target from trimmed
units, via `Solution.can_match` (a greedy scan) and `Solution.solve`
(a forward dynamic program).  The definitions below are a direct shallow
embedding of that code: strings become `List Char`, Python's unbounded
integers become `Int` (costs and budgets may be negative), the
`float('inf')` sentinel of the DP arrays becomes `none`, and the pair of
parallel arrays `dp_cost` / `dp_units` becomes one list of optional
`(cost, units)` pairs (the code always writes `dp_units[i]` together with
`dp_cost[i]`, so pairing them is faithful).
-/

/-- Embedding of the Python class `BasicUnit`: a unit sequence, its
manufacturing cost, and its deletion budget `dmax`.  Python integers are
unbounded and may be negative, hence `Int`. -/
structure BasicUnit where
  sequence : List Char
  cost : Int
  dmax : Int
deriving DecidableEq

/-- The scanning loop of `Solution.can_match`: cursor `i` into the unit is
the structural recursion on the first list, cursor `j` into the slice is the
second list, `d` is the running deletion count.  On a symbol match both
cursors advance; on a mismatch the deletion count is incremented, checked
against `dmax` (short-circuit failure), and only the unit cursor advances.
When either list is exhausted the code computes
`remaining = len(slice) - j` and succeeds iff
`deletions + remaining <= dmax`. -/
def canMatchAux (dmax : Int) : List Char → List Char → Nat → Bool
  | u :: us, t :: ts, d =>
      if u = t then canMatchAux dmax us ts d
      else if (d : Int) + 1 > dmax then false
      else canMatchAux dmax us (t :: ts) (d + 1)
  | _, ts, d => decide ((d : Int) + ts.length ≤ dmax)

/-- Embedding of `Solution.can_match(unit, target_subsequence)`. -/
def can_match (unit : BasicUnit) (slice : List Char) : Bool :=
  canMatchAux unit.dmax unit.sequence slice 0

/-- Python's slice `target[j:i]`. -/
def sliceOf (t : List Char) (j i : Nat) : List Char :=
  (t.take i).drop j

/-- One DP update of `Solution.solve`: from a feasible transition out of
table entry `prev` with a unit of cost `ucost`, improve the current entry
`cur` lexicographically (strictly cheaper cost replaces both fields; equal
cost with strictly fewer units replaces the unit count).  `none` is the
`float('inf')` sentinel: an unreachable `prev` never updates (in Python,
`inf + cost` loses every comparison that would trigger a write). -/
def updateEntry (cur prev : Option (Int × Nat)) (ucost : Int) : Option (Int × Nat) :=
  match prev with
  | none => cur
  | some (pc, pu) =>
    match cur with
    | none => some (pc + ucost, pu + 1)
    | some (bc, bu) =>
      if pc + ucost < bc then some (pc + ucost, pu + 1)
      else if pc + ucost = bc ∧ pu + 1 < bu then some (bc, pu + 1)
      else cur

/-- The body of `Solution.solve` for one end position `i ≥ 1`: iterate over
the catalog, and for each unit over start positions
`j ∈ [max(0, i - len(unit.sequence)), i)` (Nat subtraction supplies the
`max(0, ...)`), folding feasible transitions into entry `i`, which starts
at the infinity sentinel. -/
def dpStep (t : List Char) (units : List BasicUnit)
    (dp : List (Option (Int × Nat))) (i : Nat) : Option (Int × Nat) :=
  units.foldl (fun cur unit =>
    (List.range' (i - unit.sequence.length) (i - (i - unit.sequence.length))).foldl
      (fun cur2 j =>
        if can_match unit (sliceOf t j i) then
          updateEntry cur2 (dp.getD j none) unit.cost
        else cur2) cur) none

/-- The full DP table of `Solution.solve`: entry `0` is `(0, 0)` (the base
case set in `Solution.__init__`), and entries `1..n` are computed left to
right by `dpStep`, each reading only earlier entries. -/
def dpTable (t : List Char) (units : List BasicUnit) : List (Option (Int × Nat)) :=
  (List.range' 1 t.length).foldl (fun dp i => dp ++ [dpStep t units dp i]) [some (0, 0)]

/-- Embedding of `Solution.solve`: returns `(None, None)` when the final
table entry is still the infinity sentinel, else the pair
`(dp_cost[n], dp_units[n])`. -/
def solve (target : List Char) (units : List BasicUnit) : Option Int × Option Nat :=
  match (dpTable target units).getD target.length none with
  | none => (none, none)
  | some (c, u) => (some c, some u)

/-- Modelled from the spec: `slice` can be obtained from `unit.sequence` by
deleting at most `unit.dmax` symbols (deletions only — no insertions, no
substitutions, no reordering).  Equivalently, `slice` is a subsequence of
`unit.sequence` and the number of deleted symbols,
`len(sequence) - len(slice)`, is at most `dmax`.  This is the semantics the
spec ascribes to the feasibility test, stated independently of the code. -/
def specObtainable (unit : BasicUnit) (slice : List Char) : Prop :=
  slice.Sublist unit.sequence ∧
    ((unit.sequence.length - slice.length : Nat) : Int) ≤ unit.dmax

instance (unit : BasicUnit) (slice : List Char) : Decidable (specObtainable unit slice) :=
  inferInstanceAs (Decidable (_ ∧ _))

/-- Modelled from the spec: an exact assembly of `target` from `catalog` is
a list of (unit, slice) pairs whose slices are non-empty contiguous pieces
concatenating to exactly `target`, each slice producible from its unit
within that unit's deletion budget. -/
def isAssembly (catalog : List BasicUnit) (parts : List (BasicUnit × List Char))
    (target : List Char) : Prop :=
  (parts.map Prod.snd).flatten = target ∧
    ∀ p ∈ parts, p.1 ∈ catalog ∧ p.2 ≠ [] ∧ specObtainable p.1 p.2

/-- Total manufacturing cost of an assembly. -/
def assemblyCost (parts : List (BasicUnit × List Char)) : Int :=
  (parts.map (fun p => p.1.cost)).sum

/-- The catalog of the driver's first example. -/
def ex1units : List BasicUnit :=
  [⟨"A".toList, 2, 0⟩, ⟨"C".toList, 3, 0⟩, ⟨"G".toList, 4, 0⟩,
   ⟨"T".toList, 5, 0⟩, ⟨"ACGT".toList, 10, 1⟩, ⟨"CGTA".toList, 12, 1⟩]

/-- The catalog of the driver's second example. -/
def ex2units : List BasicUnit :=
  [⟨"A".toList, 2, 0⟩, ⟨"C".toList, 3, 0⟩, ⟨"G".toList, 4, 0⟩,
   ⟨"T".toList, 5, 0⟩, ⟨"ACGT".toList, 10, 0⟩]

/-- A list of non-empty lists joining to a singleton is the singleton list
of that singleton. -/
theorem join_singleton_structure {α : Type} {L : List (List α)} {a : α}
    (h : L.flatten = [a]) (hne : ∀ l ∈ L, l ≠ []) : L = [[a]] := by
  cases L with
  | nil => simp at h
  | cons x xs =>
    have hxne : x ≠ [] := hne x (List.mem_cons_self x xs)
    cases x with
    | nil => exact absurd rfl hxne
    | cons b x' =>
      rw [List.flatten_cons, List.cons_append, List.cons.injEq] at h
      obtain ⟨hb, hrest⟩ := h
      have hx' : x' = [] ∧ xs.flatten = [] := List.append_eq_nil.mp hrest
      have hxs : xs = [] := by
        cases xs with
        | nil => rfl
        | cons y ys =>
          have hy : y = [] := by
            have := List.flatten_eq_nil_iff.mp hx'.2
            exact this y (List.mem_cons_self y ys)
          exact absurd hy (hne y (List.mem_cons_of_mem _ (List.mem_cons_self y ys)))
      subst hb hxs
      rw [hx'.1]

/-- Monotonicity of the greedy scan in the deletion budget: a run of
`canMatchAux` that succeeds with budget `dm` also succeeds with `dm + 1`. -/
theorem canMatchAux_mono : ∀ (us ts : List Char) (k : Nat) (dm : Int),
    canMatchAux dm us ts k = true → canMatchAux (dm + 1) us ts k = true := by
  intro us
  induction us with
  | nil =>
    intro ts k dm h
    simp only [canMatchAux, decide_eq_true_eq] at h ⊢
    omega
  | cons u us ih =>
    intro ts k dm h
    cases ts with
    | nil =>
      simp only [canMatchAux, decide_eq_true_eq] at h ⊢
      omega
    | cons t ts =>
      by_cases hc : u = t
      · simp only [canMatchAux, if_pos hc] at h ⊢
        exact ih ts k dm h
      · simp only [canMatchAux, if_neg hc] at h ⊢
        by_cases hd : (k : Int) + 1 > dm
        · rw [if_pos hd] at h
          exact absurd h (by simp)
        · rw [if_neg hd] at h
          rw [if_neg (by omega)]
          exact ih (t :: ts) (k + 1) dm h

/-- C1: the claim says `solve` returns the minimum total cost over all exact
assemblies (and fewest units among cost-minimal ones).  The code violates
this: for target `"C"` with catalog `C`(cost 5, dmax 0), `A`(cost 1, dmax 2),
the only exact assembly is the single unit `C` at cost 5 with 1 unit, yet
`solve` returns cost 1 — `can_match` wrongly accepts slice `"C"` for unit
`"A"` by counting the unmatched slice symbol as a deletion. -/
theorem C1_solve_undercuts_true_minimum :
    solve ['C'] [⟨['C'], 5, 0⟩, ⟨['A'], 1, 2⟩] = (some 1, some 1) ∧
    ∀ parts, isAssembly [⟨['C'], 5, 0⟩, ⟨['A'], 1, 2⟩] parts ['C'] →
      assemblyCost parts = 5 ∧ parts.length = 1 := by
  refine ⟨by decide, ?_⟩
  rintro parts ⟨hflat, hall⟩
  have hne : ∀ l ∈ parts.map Prod.snd, l ≠ [] := by
    intro l hl
    obtain ⟨p, hp, rfl⟩ := List.mem_map.mp hl
    exact (hall p hp).2.1
  have hmap : parts.map Prod.snd = [['C']] := join_singleton_structure hflat hne
  cases parts with
  | nil => simp at hmap
  | cons p rest =>
    rw [List.map_cons, List.cons.injEq] at hmap
    have hrest : rest = [] := List.map_eq_nil_iff.mp hmap.2
    subst hrest
    obtain ⟨hmem, -, hobt⟩ := hall p (List.mem_cons_self p [])
    rcases List.mem_cons.mp hmem with h1 | h2
    · exact ⟨by simp [assemblyCost, h1], rfl⟩
    · have h2' : p.1 = ⟨['A'], 1, 2⟩ := by simpa using h2
      rw [h2', hmap.1] at hobt
      exact absurd hobt (by decide)

/-- C2: the claim says `can_match` returns true iff the slice is obtainable
from the unit's sequence by at most `dmax` deletions.  The code violates
this: for unit sequence `"A"` with `dmax = 2` and slice `"C"`, `can_match`
returns true although `"C"` cannot be obtained from `"A"` by deletions at
all (the unmatched slice symbol is merely summed into the deletion count). -/
theorem C2_can_match_accepts_unobtainable :
    can_match ⟨['A'], 0, 2⟩ ['C'] = true ∧ ¬ specObtainable ⟨['A'], 0, 2⟩ ['C'] := by
  decide

/-- C3: the claim says `solve` returns `(None, None)` iff no combination of
units reconstructs the target exactly.  The code violates this: for target
`"A"` and the single unit `"AC"`(cost 1, dmax 0) no exact assembly exists
(producing `"A"` from `"AC"` needs one deletion but `dmax = 0`), yet `solve`
returns `(1, 1)` because `can_match` never charges for unit symbols after
the slice is fully consumed. -/
theorem C3_spurious_success :
    solve ['A'] [⟨['A', 'C'], 1, 0⟩] = (some 1, some 1) ∧
    ¬ ∃ parts, isAssembly [⟨['A', 'C'], 1, 0⟩] parts ['A'] := by
  refine ⟨by decide, ?_⟩
  rintro ⟨parts, hflat, hall⟩
  have hne : ∀ l ∈ parts.map Prod.snd, l ≠ [] := by
    intro l hl
    obtain ⟨p, hp, rfl⟩ := List.mem_map.mp hl
    exact (hall p hp).2.1
  have hmap : parts.map Prod.snd = [['A']] := join_singleton_structure hflat hne
  cases parts with
  | nil => simp at hmap
  | cons p rest =>
    rw [List.map_cons, List.cons.injEq] at hmap
    obtain ⟨hmem, -, hobt⟩ := hall p (List.mem_cons_self p rest)
    have hp1 : p.1 = ⟨['A', 'C'], 1, 0⟩ := by simpa using hmem
    rw [hp1, hmap.1] at hobt
    exact absurd hobt (by decide)

/-- C4 counterexample: on the driver's first example (target `"ACGTACGTA"`
with catalog `ex1units`) `solve` does not return the claimed `(23, 5)`. -/
theorem C4_counterexample :
    ¬ (solve "ACGTACGTA".toList ex1units = (some 23, some 5)) := by decide

/-- C4 (amended): on the driver's first example `solve` returns cost 22 and
unit count 3 (two exact `ACGT` units plus one `A` unit: 10 + 10 + 2). -/
theorem C4_actual_result :
    solve "ACGTACGTA".toList ex1units = (some 22, some 3) := by decide

/-- C5: feasibility is monotone in the deletion budget: if `can_match`
accepts a slice for a unit, it also accepts it for the otherwise identical
unit whose budget is one larger. -/
theorem C5_can_match_mono_dmax (seq : List Char) (c dm : Int) (s : List Char)
    (h : can_match ⟨seq, c, dm⟩ s = true) :
    can_match ⟨seq, c, dm + 1⟩ s = true :=
  canMatchAux_mono seq s 0 dm h

/-- Witness for C5 at a concrete unit and slice. -/
theorem C5_witness :
    can_match ⟨"ACGT".toList, 10, 1⟩ "ACG".toList = true ∧
    can_match ⟨"ACGT".toList, 10, 1 + 1⟩ "ACG".toList = true :=
  ⟨by decide, C5_can_match_mono_dmax "ACGT".toList 10 1 "ACG".toList (by decide)⟩

/-- C6 counterexample: a malformed input (a unit with negative cost) is not
rejected: `solve` silently computes on it and returns a negative total
cost, so no failure distinct from `NoSolution` is ever raised. -/
theorem C6_counterexample :
    solve ['A'] [⟨['A'], -1, 0⟩] = (some (-1), some 1) := by decide

/-- C6 (amended): the core performs no input validation.  An empty target,
a negative `dmax`, and symbols outside the 4-letter alphabet are all
silently accepted and computed upon; the only non-success outcome is
`(None, None)` (a negative-`dmax` unit simply yields `NoSolution`), and a
negative-cost unit yields a computed, non-`NoSolution` result. -/
theorem C6_no_input_validation :
    solve [] [⟨['A'], 1, 0⟩] = (some 0, some 0) ∧
    solve ['A'] [⟨['A'], 2, -1⟩] = (none, none) ∧
    solve ['X'] [⟨['X'], 1, 0⟩] = (some 1, some 1) ∧
    solve ['A'] [⟨['A'], -1, 0⟩] ≠ (none, none) := by decide

/-- C7: for the empty target and any non-empty catalog, `solve` returns
cost 0 and unit count 0 (the DP base case). -/
theorem C7_empty_target (units : List BasicUnit) (_h : units ≠ []) :
    solve [] units = (some 0, some 0) := rfl

/-- Witness for C7 at a concrete non-empty catalog. -/
theorem C7_witness :
    ([⟨['A'], 1, 0⟩] : List BasicUnit) ≠ [] ∧
    solve [] [⟨['A'], 1, 0⟩] = (some 0, some 0) :=
  ⟨by decide, C7_empty_target [⟨['A'], 1, 0⟩] (by decide)⟩

/-- C8: on the driver's second example (target `"ACGT"` with catalog
`ex2units`) `solve` returns cost 10 and unit count 1: the exact-match unit
`ACGT` beats the four single-symbol units costing 14. -/
theorem C8_example2 : solve "ACGT".toList ex2units = (some 10, some 1) := by decide

/-- C9: `solve` is deterministic — it is a pure function of the target and
the catalog, so two runs on identical inputs yield identical results. -/
theorem C9_solve_deterministic (t₁ t₂ : List Char) (c₁ c₂ : List BasicUnit)
    (ht : t₁ = t₂) (hc : c₁ = c₂) : solve t₁ c₁ = solve t₂ c₂ := by
  rw [ht, hc]

/-- Witness for C9 at a concrete input. -/
theorem C9_witness :
    solve ['A'] [⟨['A'], 1, 0⟩] = solve ['A'] [⟨['A'], 1, 0⟩] :=
  C9_solve_deterministic ['A'] ['A'] [⟨['A'], 1, 0⟩] [⟨['A'], 1, 0⟩] rfl rfl

/-- C10: for every unit with non-negative `dmax`, `can_match` accepts the
empty slice — even when the unit's sequence is longer than `dmax`, because
the scanning loop exits immediately and counts no deletions. -/
theorem C10_empty_slice_always_matches (u : BasicUnit) (h : 0 ≤ u.dmax) :
    can_match u [] = true := by
  obtain ⟨seq, c, dm⟩ := u
  have h' : (0 : Int) ≤ dm := h
  cases seq with
  | nil =>
    simp only [can_match, canMatchAux, List.length_nil, Nat.cast_zero, decide_eq_true_eq]
    omega
  | cons a as =>
    simp only [can_match, canMatchAux, List.length_nil, Nat.cast_zero, decide_eq_true_eq]
    omega

/-- Witness for C10 at a concrete unit whose sequence is longer than its
budget. -/
theorem C10_witness :
    (0 : Int) ≤ (⟨"ACG".toList, 7, 0⟩ : BasicUnit).dmax ∧
    can_match ⟨"ACG".toList, 7, 0⟩ [] = true :=
  ⟨by decide, C10_empty_slice_always_matches ⟨"ACG".toList, 7, 0⟩ (by decide)⟩
